import Mathlib

/-!
Verification development for the `notes` terminal Markdown-notes browser
(`src/main.go`).  The Go functions under verification are shallowly embedded
as Lean definitions:

* `Notes.resolveAndValidatePath` embeds `resolveAndValidatePath`
  (main.go:218-243).  The Go standard library path helpers it calls
  (`filepath.Clean`, `filepath.Join`, `filepath.Rel`, `strings.HasPrefix`,
  `strings.TrimPrefix`) are embedded for Unix (separator `/`) as
  segment-level string functions below; `os.UserHomeDir` becomes an
  `Option String` parameter.
* `Notes.buildTree` / `Notes.flattenTree` embed `buildTree`
  (main.go:144-176) and `flattenTree` (main.go:178-198); the filesystem a
  scan observes is an inductive `FsNode` tree whose child order is the OS
  listing order returned by `os.ReadDir`.
* `Notes.rebuildTree` embeds `rebuildTree` (main.go:134-141).
* `Notes.processANSIStrings` / `Notes.parseANSICode` embed
  `processANSIStrings` (main.go:311-347) and `parseANSICode`
  (main.go:273-308); the byte-indexed scanning loop is embedded as a
  left fold over the characters of the line with an explicit scanner
  configuration, which is exactly the loop state of the Go code.
-/

namespace Notes

/-! ## Generic character-list utilities (embedding Go `strings` helpers) -/

/-- Embeds Go `strings.Split(s, sep)` for a one-character separator,
operating on the character list of a string.  `strings.Split("", sep)`
returns `[""]`, matching `splitOnChar sep [] = [[]]`. -/
def splitOnChar (sep : Char) : List Char → List (List Char)
  | [] => [[]]
  | c :: rest =>
    if c = sep then
      [] :: splitOnChar sep rest
    else
      match splitOnChar sep rest with
      | [] => [[c]]
      | seg :: segs => (c :: seg) :: segs

/-- Embeds Go `strings.HasPrefix(s, pre)` (byte prefix; for whole-character
prefixes this coincides with character-list prefix). -/
def goHasPrefix (s pre : String) : Bool :=
  pre.data.isPrefixOf s.data

/-- Embeds Go `strings.HasSuffix(s, suf)`. -/
def goHasSuffix (s suf : String) : Bool :=
  suf.data.isSuffixOf s.data

/-- Embeds Go `strings.TrimPrefix(s, pre)`: removes `pre` once if present. -/
def goTrimPrefix (s pre : String) : String :=
  if goHasPrefix s pre then ⟨s.data.drop pre.data.length⟩ else s

/-! ## ANSI text processing (main.go:273-347)

The Go type `tcell.Color` is used by `parseANSICode` only through its zero
value (`TextStyle{}` leaves the colors at `tcell.ColorDefault`) and the
eight named palette constants, so it is embedded as an enumeration. -/

inductive GoColor where
  | default
  | black
  | maroon
  | green
  | olive
  | navy
  | purple
  | teal
  | silver
deriving DecidableEq, Repr

/-- Embeds the Go struct `TextStyle` (main.go:33-38).  The field defaults
are the Go zero value `TextStyle{}`. -/
structure TextStyle where
  Bold : Bool := false
  Underline : Bool := false
  Foreground : GoColor := .default
  Background : GoColor := .default
deriving DecidableEq, Repr

/-- Embeds the Go struct `ColData` (main.go:28-31). -/
structure ColData where
  Text : String
  Style : TextStyle
deriving DecidableEq, Repr

/-- Embeds one iteration of the `switch part` statement in `parseANSICode`
(main.go:275-306). -/
def parseANSIPart (style : TextStyle) (part : String) : TextStyle :=
  if part = "0" then {}
  else if part = "1" then { style with Bold := true }
  else if part = "4" then { style with Underline := true }
  else if part = "30" then { style with Foreground := .black }
  else if part = "31" then { style with Foreground := .maroon }
  else if part = "32" then { style with Foreground := .green }
  else if part = "33" then { style with Foreground := .olive }
  else if part = "34" then { style with Foreground := .navy }
  else if part = "35" then { style with Foreground := .purple }
  else if part = "36" then { style with Foreground := .teal }
  else if part = "37" then { style with Foreground := .silver }
  else style

/-- Embeds `parseANSICode` (main.go:273-308): split the parameter string on
`;` and fold the per-part update over the running style. -/
def parseANSICode (code : String) (style : TextStyle) : TextStyle :=
  ((splitOnChar ';' code.data).map (fun l => (⟨l⟩ : String))).foldl parseANSIPart style

/-- The ASCII escape character `\x1b`. -/
def escChar : Char := '\x1b'

/-- Scanner position state of the `processANSIStrings` loop
(main.go:311-347).  The Go loop indexes bytes with lookahead; scanning one
character at a time, the position within a potential escape sequence is:

* `plain`: outside any escape sequence;
* `sawEsc`: the previous character was ESC and it is not yet known whether
  an introducer follows (Go: position `i` points at ESC, lookahead pending);
* `sawEscBracket`: the previous two characters were ESC `[`; the Go
  condition `i+2 < len(s)` makes this an introducer only if at least one
  further character exists;
* `inSeq params`: inside a recognized escape sequence, `params` are the
  characters read since the introducer (the slice `s[i+2 : i+seqEnd]` being
  accumulated while searching for the terminating `m`). -/
inductive ScanMode where
  | plain
  | sawEsc
  | sawEscBracket
  | inSeq (params : List Char)
deriving DecidableEq, Repr

/-- Loop state of `processANSIStrings`: the emitted runs (`cols`), the
scanner position, the current style and the pending text
(`textBuilder`). -/
structure ScanConfig where
  cols : List ColData
  mode : ScanMode
  style : TextStyle
  buf : List Char
deriving DecidableEq, Repr

/-- Embeds the flush of `textBuilder` (main.go:319-325 and 340-345): a run
is appended only when the pending text is non-empty. -/
def flushList (buf : List Char) (style : TextStyle) : List ColData :=
  if buf = [] then [] else [⟨⟨buf⟩, style⟩]

/-- One step of the `processANSIStrings` loop, consuming one character. -/
def scanStep (cfg : ScanConfig) (c : Char) : ScanConfig :=
  match cfg.mode with
  | .plain =>
    if c = escChar then { cfg with mode := .sawEsc }
    else { cfg with buf := cfg.buf ++ [c] }
  | .sawEsc =>
    if c = '[' then { cfg with mode := .sawEscBracket }
    else if c = escChar then
      -- the pending ESC is literal text (main.go:334-337); the new ESC may
      -- still open an introducer
      { cfg with buf := cfg.buf ++ [escChar] }
    else
      { cfg with mode := .plain, buf := cfg.buf ++ [escChar, c] }
  | .sawEscBracket =>
    -- a character follows `ESC [`, so `i+2 < len(s)` held at the ESC:
    -- the introducer is recognized and pending text is flushed
    -- (main.go:317-325)
    let flushed := cfg.cols ++ flushList cfg.buf cfg.style
    if c = 'm' then
      -- empty parameter list: `seq` is the empty slice
      { cols := flushed, mode := .plain, style := parseANSICode "" cfg.style, buf := [] }
    else
      { cols := flushed, mode := .inSeq [c], style := cfg.style, buf := [] }
  | .inSeq ps =>
    if c = 'm' then
      { cfg with mode := .plain, style := parseANSICode ⟨ps⟩ cfg.style, buf := [] }
    else
      { cfg with mode := .inSeq (ps ++ [c]) }

/-- End-of-line handling of `processANSIStrings`: pending text is flushed
(main.go:339-345); a line ending inside `ESC` or `ESC [` never recognized
an introducer, so those characters are literal text; a line ending inside a
recognized escape sequence hit `strings.Index(s[i:], "m") == -1`, so the
loop broke with the remainder discarded (main.go:327-329). -/
def scanFinish (cfg : ScanConfig) : List ColData :=
  match cfg.mode with
  | .plain => cfg.cols ++ flushList cfg.buf cfg.style
  | .sawEsc => cfg.cols ++ flushList (cfg.buf ++ [escChar]) cfg.style
  | .sawEscBracket => cfg.cols ++ flushList (cfg.buf ++ [escChar, '[']) cfg.style
  | .inSeq _ => cfg.cols

/-- The initial loop state of `processANSIStrings`. -/
def scanInit : ScanConfig := { cols := [], mode := .plain, style := {}, buf := [] }

/-- Embeds `processANSIStrings` (main.go:311-347). -/
def processANSIStrings (s : String) : List ColData :=
  scanFinish (s.data.foldl scanStep scanInit)

/-- The claim-side hypothesis of C9: the line contains no escape-sequence
introducer, i.e. no adjacent `ESC` `[` pair. -/
def noEscIntro : List Char → Bool
  | [] => true
  | [_] => true
  | a :: b :: rest => !(a = escChar ∧ b = '[') && noEscIntro (b :: rest)

/-! ## Paths: the Go `path/filepath` helpers used by main.go, for Unix

`filepath.Clean` (the Plan 9 cleanname algorithm) is embedded at the
path-segment level: split on `/`, drop empty and `.` elements, process the
remaining elements through the `..`-collapsing stack, and reassemble.  This
is extensionally the Go byte-level algorithm for the separator `/`. -/

/-- Leading-separator test (`path[0] == '/'`); the empty string is not
rooted. -/
def isRooted (s : String) : Bool :=
  match s.data with
  | c :: _ => c = '/'
  | [] => false

/-- The `/`-separated elements of a path, with empty and `.` elements
dropped (Clean cases 1 and 2: eliminate multiple separators and `.`
elements). -/
def rawSegs (s : String) : List String :=
  ((splitOnChar '/' s.data).map (fun l => (⟨l⟩ : String))).filter
    (fun x => x ≠ "" ∧ x ≠ ".")

/-- One element of the `..`-collapsing processing of `filepath.Clean`
(cases 3 and 4: a `..` eliminates the preceding non-`..` element; leading
`..` elements are kept for relative paths and dropped at the root for
rooted paths).  The `stack` holds the output elements processed so far,
most recent first. -/
def runStack1 (rooted : Bool) (stack : List String) (seg : String) : List String :=
  if seg = ".." then
    match stack with
    | [] => if rooted then [] else [".."]
    | top :: stk => if top = ".." then ".." :: top :: stk else stk
  else seg :: stack

/-- The `..`-collapsing element loop of `filepath.Clean`. -/
def runStack (rooted : Bool) : List String → List String → List String
  | stack, [] => stack
  | stack, seg :: rest => runStack rooted (runStack1 rooted stack seg) rest

/-- Canonical segment list of a path: rootedness plus the cleaned
elements in path order. -/
def cleanSegs (s : String) : Bool × List String :=
  (isRooted s, (runStack (isRooted s) [] (rawSegs s)).reverse)

/-- Joins segments with `/` (no leading or trailing separator). -/
def joinPath : List String → String
  | [] => ""
  | [a] => a
  | a :: rest => a ++ "/" ++ joinPath rest

/-- Reassembles a cleaned segment list into the string `filepath.Clean`
returns: rooted paths get the leading `/`; an empty relative result is
`.`. -/
def joinSegs (rooted : Bool) (segs : List String) : String :=
  if rooted then "/" ++ joinPath segs
  else if segs = [] then "." else joinPath segs

/-- Embeds `filepath.Clean` for Unix. -/
def clean (s : String) : String :=
  joinSegs (cleanSegs s).1 (cleanSegs s).2

/-- Embeds `filepath.Join(a, b)` for Unix: empty elements are dropped, the
rest are joined with `/` and cleaned; with no non-empty element the result
is the empty string (and `Clean` is not applied). -/
def goJoin2 (a b : String) : String :=
  if a = "" ∧ b = "" then ""
  else if a = "" then clean b
  else if b = "" then clean a
  else clean (a ++ "/" ++ b)

/-- Drops the longest common leading run of two segment lists and returns
the two remainders (the element-comparison loop of `filepath.Rel`). -/
def dropCommon : List String → List String → List String × List String
  | b :: bs, t :: ts =>
    if b = t then dropCommon bs ts else (b :: bs, t :: ts)
  | bs, ts => (bs, ts)

/-- Embeds `filepath.Rel(basepath, targpath)` for Unix, `none` being the
error return: both paths are cleaned; they must agree on rootedness; after
the common leading elements are dropped, a remaining base element `..`
is an error, and otherwise the result climbs with one `..` per remaining
base element and then follows the remaining target elements.  (When the
cleaned target is `.` and the cleaned base is not, Go produces a trailing
`/.`, e.g. `Rel("a", ".") = "../."` where this embedding yields `..`; both
forms are identical under the `..`-escape test of main.go:238, which is the
only use of the result.) -/
def goRel (basepath targpath : String) : Option String :=
  let bp := cleanSegs basepath
  let tp := cleanSegs targpath
  if bp.1 ≠ tp.1 then none
  else
    let rem := dropCommon bp.2 tp.2
    match rem.1 with
    | [] => some (if rem.2 = [] then "." else joinPath rem.2)
    | s :: _ =>
      if s = ".." then none
      else some (joinPath (List.replicate rem.1.length ".." ++ rem.2))

/-- Embeds `filepath.Base` for Unix (used for the root display name,
main.go:146). -/
def goBase (p : String) : String :=
  if p = "" then "."
  else
    let l := p.data.reverse.dropWhile (fun c => c = '/')
    if l = [] then "/"
    else ⟨(l.takeWhile (fun c => c ≠ '/')).reverse⟩

/-- Embeds `filepath.Dir` for Unix (used by `handleNew`, main.go:426):
everything up to and including the final separator, cleaned. -/
def goDir (p : String) : String :=
  clean ⟨(p.data.reverse.dropWhile (fun c => c ≠ '/')).reverse⟩

/-! ## The path resolver (main.go:218-243) -/

/-- Embeds the `~`-expansion prologue of `resolveAndValidatePath`
(main.go:220-226).  `homeDir` is the result of `os.UserHomeDir`; `none` is
its error return. -/
def expandTilde (homeDir : Option String) (inputPath : String) : Except String String :=
  if goHasPrefix inputPath "~" then
    match homeDir with
    | none => .error "Unable to determine home directory"
    | some h => .ok (goJoin2 h (goTrimPrefix inputPath "~"))
  else .ok inputPath

/-- Embeds `resolveAndValidatePath` (main.go:218-243). -/
def resolveAndValidatePath (homeDir : Option String) (inputPath rootItemPath : String) :
    Except String String :=
  match expandTilde homeDir inputPath with
  | .error e => .error e
  | .ok ip =>
    let resolvedPath := clean (goJoin2 rootItemPath ip)
    match goRel rootItemPath resolvedPath with
    | none => .error "Invalid path"
    | some relPath =>
      if goHasPrefix relPath (".." ++ "/") ∨ relPath = ".." then
        .error "Path must be within the notes directory"
      else .ok resolvedPath

/-- Claim-side boolean prefix test on segment lists (C1). -/
def segsLe : List String → List String → Bool
  | [], _ => true
  | _ :: _, [] => false
  | a :: as, b :: bs => a = b && segsLe as bs

/-- Claim-side notion for C1: the canonicalized form of `p` is `root`
itself or a descendant of `root` (same rootedness, and the cleaned
segments of `root` are a leading run of the cleaned segments of `p`). -/
def isDescendantOrSelf (root p : String) : Bool :=
  (cleanSegs root).1 = (cleanSegs p).1 && segsLe (cleanSegs root).2 (cleanSegs p).2

/-! ## Filesystem mutations of `handleNew` (main.go:380-442)

Only the decision logic after the user input is pure; it is embedded as
the list of filesystem operations `handleNew` performs for a given input
`name`, root, and parent-directory existence.  On a resolver error,
`handleNew` returns before touching the filesystem (main.go:410-414). -/

inductive FsOp where
  | mkdirAll (path : String)
  | createFile (path : String)
deriving DecidableEq, Repr

/-- The filesystem operations `handleNew` performs for input `name`
(main.go:409-441); `parentDirExists` is the `os.Stat(dirPath)` outcome at
main.go:427. -/
def handleNewOps (homeDir : Option String) (name rootItemPath : String)
    (parentDirExists : Bool) : List FsOp :=
  match resolveAndValidatePath homeDir name rootItemPath with
  | .error _ => []
  | .ok newPath =>
    if goHasSuffix name "/" then [.mkdirAll newPath]
    else
      (if parentDirExists then [] else [.mkdirAll (goDir newPath)]) ++ [.createFile newPath]

/-! ## The directory tree model (main.go:19-25, 134-198)

`FsNode` is the directory state a scan observes: a directory's children
are listed in the order `os.ReadDir` returns them (the OS listing order).
A file has no children; a directory whose listing fails is represented the
same way a file is, since `buildTree` then returns a childless node
(main.go:151-154). -/

inductive FsNode where
  | file (name : String)
  | dir (name : String) (entries : List FsNode)

/-- The `entry.Name()` accessor. -/
def fsName : FsNode → String
  | .file n => n
  | .dir n _ => n

/-- Embeds the Go struct `TreeItem` (main.go:19-25). -/
structure TreeItem where
  Display : String
  Path : String
  Children : List TreeItem
  IsLast : Bool
  Prefixes : List Bool
deriving Repr

mutual

/-- Embeds `buildTree` (main.go:144-176): the node at `path` displays
`filepath.Base(path)`, is marked last at its level, and, when `path` is a
listable directory, carries one child per entry in listing order. -/
def buildTree (path : String) : FsNode → TreeItem
  | .file _ =>
    { Display := goBase path, Path := path, Children := [], IsLast := true, Prefixes := [] }
  | .dir _ entries =>
    { Display := goBase path, Path := path, Children := buildChildren path entries,
      IsLast := true, Prefixes := [] }

/-- The entry loop of `buildTree` (main.go:157-174).  In Go a file child is
constructed directly and a directory child is `buildTree` with `Display`,
`Path` and `IsLast` overridden; for a file child the override of the
`buildTree` result produces the identical record, so both cases are the
override. -/
def buildChildren (path : String) : List FsNode → List TreeItem
  | [] => []
  | entry :: rest =>
    let itemPath := goJoin2 path (fsName entry)
    let isLastEntry := rest.isEmpty
    let base := buildTree itemPath entry
    { base with Display := fsName entry, Path := itemPath, IsLast := isLastEntry }
      :: buildChildren path rest

end

mutual

/-- Embeds `flattenTree` (main.go:178-198): pre-order flattening, stamping
each item with the ancestor prefix bits threaded down to it. -/
def flattenTree (item : TreeItem) (prefixes : List Bool) : List TreeItem :=
  { item with Prefixes := prefixes } :: flattenChildren item.Children prefixes
termination_by sizeOf item
decreasing_by cases item; simp; omega

/-- The child loop of `flattenTree` (main.go:187-195): each child is
flattened under `prefixes ++ [!isLastChild]`. -/
def flattenChildren : List TreeItem → List Bool → List TreeItem
  | [], _ => []
  | child :: rest, prefixes =>
    flattenTree child (prefixes ++ [!rest.isEmpty]) ++ flattenChildren rest prefixes
termination_by l _ => sizeOf l
decreasing_by all_goals (simp; try omega)

end

/-- Embeds `rebuildTree` (main.go:134-141): rescan, flatten, and clamp the
selection index when it is at or past the end.  The Go `*int` in-out
parameter becomes the returned pair. -/
def rebuildTree (dir : String) (tree : FsNode) (currentSelection : Int) :
    List TreeItem × Int :=
  let flatTree := flattenTree (buildTree dir tree) []
  if currentSelection ≥ (flatTree.length : Int) then (flatTree, (flatTree.length : Int) - 1)
  else (flatTree, currentSelection)

/-! ## Claim-side specification functions (C2, C3)

These follow the words of the spec, to be compared with the flattening the
code computes. -/

mutual

/-- Spec side of C2: the pre-order, depth-first listing of the paths of
every filesystem node, root first, children in OS listing order. -/
def preorderPaths (path : String) : FsNode → List String
  | .file _ => [path]
  | .dir _ entries => path :: preorderList path entries

/-- Sibling traversal for `preorderPaths`. -/
def preorderList (path : String) : List FsNode → List String
  | [] => []
  | e :: rest => preorderPaths (goJoin2 path (fsName e)) e ++ preorderList path rest

end

mutual

/-- The number of filesystem nodes of a tree. -/
def nodeCount : FsNode → Nat
  | .file _ => 1
  | .dir _ entries => 1 + nodeCountList entries

/-- Sibling sum for `nodeCount`. -/
def nodeCountList : List FsNode → Nat
  | [] => 0
  | e :: rest => nodeCount e + nodeCountList rest

end

mutual

/-- Spec side of C3: the prefix sequence assigned to every node in
pre-order — the node's own sequence first, and each child's sequence is
the parent's with exactly one boolean appended, true exactly when the
child is not the last child. -/
def prefAssign (pfx : List Bool) (t : TreeItem) : List (List Bool) :=
  pfx :: prefChildren pfx t.Children
termination_by sizeOf t
decreasing_by cases t; simp; omega

/-- Sibling traversal for `prefAssign`. -/
def prefChildren (pfx : List Bool) : List TreeItem → List (List Bool)
  | [] => []
  | c :: rest => prefAssign (pfx ++ [!rest.isEmpty]) c ++ prefChildren pfx rest
termination_by l => sizeOf l
decreasing_by all_goals (simp; try omega)

end

mutual

/-- Spec side of C3: the depth of every node in pre-order, the root at
depth `d`. -/
def depthsOf (d : Nat) (t : TreeItem) : List Nat :=
  d :: depthsChildren (d + 1) t.Children
termination_by sizeOf t
decreasing_by cases t; simp; omega

/-- Sibling traversal for `depthsOf`. -/
def depthsChildren (d : Nat) : List TreeItem → List Nat
  | [] => []
  | c :: rest => depthsOf d c ++ depthsChildren d rest
termination_by l => sizeOf l
decreasing_by all_goals (simp; try omega)

end

/-! # Lemmas and theorems -/

/-! ## The ANSI scanner (claims C7, C8, C9) -/

theorem noEscIntro_tail {a : Char} {l : List Char} (h : noEscIntro (a :: l) = true) :
    noEscIntro l = true := by
  cases l with
  | nil => rfl
  | cons b rest =>
    simp only [noEscIntro, Bool.and_eq_true] at h
    exact h.2

theorem noEscIntro_esc_head {l : List Char} (h : noEscIntro (escChar :: l) = true) :
    l.head? ≠ some '[' := by
  cases l with
  | nil => simp
  | cons b rest =>
    intro hb
    simp only [List.head?_cons, Option.some.injEq] at hb
    subst hb
    simp [noEscIntro] at h

/-- Scanning a line with no `ESC [` introducer accumulates all characters
into the pending text, whether the scanner starts outside an escape or
just after a literal ESC whose next character is not `[`. -/
theorem scanNoIntro (l : List Char) :
    (∀ (cols : List ColData) (style : TextStyle) (buf : List Char), noEscIntro l = true →
      scanFinish (l.foldl scanStep ⟨cols, .plain, style, buf⟩) =
        cols ++ flushList (buf ++ l) style)
    ∧ (∀ (cols : List ColData) (style : TextStyle) (buf : List Char), noEscIntro l = true →
      l.head? ≠ some '[' →
      scanFinish (l.foldl scanStep ⟨cols, .sawEsc, style, buf⟩) =
        cols ++ flushList (buf ++ escChar :: l) style) := by
  induction l with
  | nil =>
    constructor
    · intro cols style buf _
      simp [scanFinish]
    · intro cols style buf _ _
      simp [scanFinish]
  | cons c rest ih =>
    constructor
    · intro cols style buf hno
      by_cases hc : c = escChar
      · subst hc
        have h2 := ih.2 cols style buf (noEscIntro_tail hno) (noEscIntro_esc_head hno)
        simpa [scanStep] using h2
      · have h1 := ih.1 cols style (buf ++ [c]) (noEscIntro_tail hno)
        simpa [scanStep, hc] using h1
    · intro cols style buf hno hhead
      have hcbr : c ≠ '[' := by
        intro h
        subst h
        simp at hhead
      by_cases hc : c = escChar
      · subst hc
        have h2 := ih.2 cols style (buf ++ [escChar]) (noEscIntro_tail hno)
          (noEscIntro_esc_head hno)
        simpa [scanStep, hcbr] using h2
      · have h1 := ih.1 cols style (buf ++ [escChar, c]) (noEscIntro_tail hno)
        simpa [scanStep, hcbr, hc] using h1

/-- Once inside a recognized escape sequence, if no `m` follows then the
scan ends there and only the previously emitted runs are returned. -/
theorem scanDiscard (v : List Char) :
    ∀ (cols : List ColData) (style : TextStyle) (buf : List Char) (ps : List Char),
      'm' ∉ v →
      scanFinish (v.foldl scanStep ⟨cols, .inSeq ps, style, buf⟩) = cols := by
  induction v with
  | nil => intro cols style buf ps _; rfl
  | cons c v ih =>
    intro cols style buf ps hm
    have hc : c ≠ 'm' := by intro h; exact hm (h ▸ List.mem_cons_self c v)
    have := ih cols style buf (ps ++ [c]) (fun h => hm (List.mem_cons_of_mem c h))
    simpa [scanStep, hc] using this

/-- C7: parsing the line `"\x1b[1;31mHi\x1b[0m there"` with
`processANSIStrings` yields exactly two styled runs: first `"Hi"` in bold
with the maroon foreground, then `" there"` with the default style. -/
theorem c7_parse_bold_maroon_scenario :
    processANSIStrings "\x1b[1;31mHi\x1b[0m there" =
      [⟨"Hi", { Bold := true, Foreground := .maroon }⟩, ⟨" there", {}⟩] := by
  decide

/-- C8 counterexample: the line `"ab\x1b["` contains an `ESC [` pair with
no terminating `m`, yet `processANSIStrings` does not stop at the escape
and discard: because no character follows the `[`, the Go condition
`i+2 < len(s)` fails, the two characters are treated as literal text, and
the returned run is `"ab\x1b["` rather than the `"ab"` flushed before the
escape. -/
theorem c8_trailing_introducer_counterexample :
    processANSIStrings "ab\x1b[" = [⟨"ab\x1b[", {}⟩] ∧
    processANSIStrings "ab\x1b[" ≠ [⟨"ab", {}⟩] := by
  decide

/-- C8 amended: for every line `u ++ ESC '[' ++ v` whose escape introducer
is recognized (some character follows the `[`, i.e. `v ≠ []`) and
unterminated (no `m` in `v`), where scanning the prefix `u` ends outside
any escape with runs `cols` emitted and text `buf` pending, the scan stops
at that escape and discards the remainder: the result is exactly the runs
flushed before the malformed escape, and the function returns normally. -/
theorem c8_unterminated_escape_discards (u v : List Char) (cols : List ColData)
    (style : TextStyle) (buf : List Char)
    (hu : u.foldl scanStep scanInit = ⟨cols, .plain, style, buf⟩)
    (hv : 'm' ∉ v) (hne : v ≠ []) :
    processANSIStrings ⟨u ++ escChar :: '[' :: v⟩ = cols ++ flushList buf style := by
  unfold processANSIStrings
  rw [show (⟨u ++ escChar :: '[' :: v⟩ : String).data = u ++ escChar :: '[' :: v from rfl]
  rw [List.foldl_append, hu]
  cases v with
  | nil => exact absurd rfl hne
  | cons c v =>
    have hc : c ≠ 'm' := by intro h; exact hv (h ▸ List.mem_cons_self c v)
    have hrest : 'm' ∉ v := fun h => hv (List.mem_cons_of_mem c h)
    simp only [List.foldl_cons]
    rw [show scanStep ⟨cols, .plain, style, buf⟩ escChar = ⟨cols, .sawEsc, style, buf⟩ from rfl]
    rw [show scanStep ⟨cols, .sawEsc, style, buf⟩ '[' = ⟨cols, .sawEscBracket, style, buf⟩ from
      rfl]
    rw [show scanStep ⟨cols, .sawEscBracket, style, buf⟩ c =
      ⟨cols ++ flushList buf style, .inSeq [c], style, []⟩ from by simp [scanStep, hc]]
    exact scanDiscard v (cols ++ flushList buf style) style [] [c] hrest

/-- C8 witness: the line `"hi\x1b[31"` has a recognized, unterminated
escape; the result is the single run `"hi"` flushed before it. -/
theorem c8_witness : processANSIStrings "hi\x1b[31" = [⟨"hi", {}⟩] := by
  have h := c8_unterminated_escape_discards "hi".data "31".data [] {} "hi".data
    (by decide) (by decide) (by decide)
  simpa using h

/-- C9 counterexample: the empty line contains no escape introducer, yet
`processANSIStrings` returns no run at all rather than one run with empty
text (the flush at end of line only appends a run when pending text is
non-empty, main.go:340). -/
theorem c9_empty_line_counterexample :
    noEscIntro "".data = true ∧ (processANSIStrings "").length ≠ 1 := by
  decide

/-- C9 amended: for every non-empty line with no `ESC [` introducer pair,
`processANSIStrings` returns exactly one run whose text is the whole line
and whose style is the default. -/
theorem c9_plain_line_single_run (s : String) (hne : s ≠ "")
    (hno : noEscIntro s.data = true) :
    processANSIStrings s = [⟨s, {}⟩] := by
  have hd : s.data ≠ [] := by
    intro h
    apply hne
    cases s with
    | mk d =>
      simp only [String.data] at h
      subst h
      rfl
  unfold processANSIStrings scanInit
  rw [(scanNoIntro s.data).1 [] {} [] hno]
  simp [flushList, hd]

/-- C9 witness: the plain line `"hello"` parses to one default-styled run. -/
theorem c9_witness : processANSIStrings "hello" = [⟨"hello", {}⟩] :=
  c9_plain_line_single_run "hello" (by decide) (by decide)

/-! ## Selection rebuilding (claims C4, C10) -/

theorem flattenTree_cons (item : TreeItem) (pfx : List Bool) :
    flattenTree item pfx =
      { item with Prefixes := pfx } :: flattenChildren item.Children pfx := by
  rw [flattenTree]

theorem flattenTree_length_pos (item : TreeItem) (pfx : List Bool) :
    0 < (flattenTree item pfx).length := by
  rw [flattenTree_cons]
  simp

/-- Branch-free form of `rebuildTree`. -/
theorem rebuildTree_eq (dir : String) (tree : FsNode) (prev : Int) :
    rebuildTree dir tree prev =
      (flattenTree (buildTree dir tree) [],
       if prev ≥ ((flattenTree (buildTree dir tree) []).length : Int)
       then ((flattenTree (buildTree dir tree) []).length : Int) - 1 else prev) := by
  unfold rebuildTree
  by_cases h : prev ≥ ((flattenTree (buildTree dir tree) []).length : Int) <;> simp [h]

/-- C4 counterexample: for the previous selection index `-1` (out of
bounds for every flattened sequence) `rebuildTree` performs no clamping —
the clamp at main.go:137 only fires for indices at or past the end — so
the returned index is still `-1` and the invariant `0 <= index` fails even
though the flattened sequence is non-empty (length 2). -/
theorem c4_negative_index_counterexample :
    (rebuildTree "/notes" (FsNode.dir "notes" [FsNode.file "a.md"]) (-1)).1.length = 2 ∧
    (rebuildTree "/notes" (FsNode.dir "notes" [FsNode.file "a.md"]) (-1)).2 = -1 ∧
    ¬(0 ≤ (rebuildTree "/notes" (FsNode.dir "notes" [FsNode.file "a.md"]) (-1)).2) := by
  refine ⟨?_, ?_, ?_⟩ <;>
    simp [rebuildTree, flattenTree, flattenChildren, buildTree, buildChildren]

/-- C4 amended: for every directory state and every non-negative previous
selection index, after `rebuildTree` the flattened sequence is non-empty
and `0 <= index < len(flattened)` holds; if the previous index is at or
past the new length it is clamped to `len(flattened) - 1`.  (A negative
previous index — never produced by the program — is passed through
unclamped, as the counterexample shows.) -/
theorem c4_rebuild_clamps_nonneg (dir : String) (tree : FsNode) (prev : Int)
    (hprev : 0 ≤ prev) :
    (rebuildTree dir tree prev).1 ≠ [] ∧
    0 ≤ (rebuildTree dir tree prev).2 ∧
    (rebuildTree dir tree prev).2 < ((rebuildTree dir tree prev).1.length : Int) ∧
    (prev ≥ ((rebuildTree dir tree prev).1.length : Int) →
      (rebuildTree dir tree prev).2 = ((rebuildTree dir tree prev).1.length : Int) - 1) := by
  have hpos := flattenTree_length_pos (buildTree dir tree) []
  rw [rebuildTree_eq]
  refine ⟨?_, ?_, ?_, ?_⟩
  · intro h
    have h2 : flattenTree (buildTree dir tree) [] = [] := h
    rw [h2] at hpos
    simp at hpos
  · by_cases h : prev ≥ ((flattenTree (buildTree dir tree) []).length : Int) <;>
      simp [h] <;> omega
  · by_cases h : prev ≥ ((flattenTree (buildTree dir tree) []).length : Int) <;>
      simp [h] <;> omega
  · by_cases h : prev ≥ ((flattenTree (buildTree dir tree) []).length : Int) <;>
      simp [h]

/-- C4 witness: rebuilding a two-entry tree with previous index 5 clamps
to index 1 and restores the invariant. -/
theorem c4_witness :
    (rebuildTree "/n" (FsNode.dir "n" [FsNode.file "x"]) 5).1 ≠ [] ∧
    0 ≤ (rebuildTree "/n" (FsNode.dir "n" [FsNode.file "x"]) 5).2 ∧
    (rebuildTree "/n" (FsNode.dir "n" [FsNode.file "x"]) 5).2 <
      ((rebuildTree "/n" (FsNode.dir "n" [FsNode.file "x"]) 5).1.length : Int) ∧
    (5 ≥ ((rebuildTree "/n" (FsNode.dir "n" [FsNode.file "x"]) 5).1.length : Int) →
      (rebuildTree "/n" (FsNode.dir "n" [FsNode.file "x"]) 5).2 =
        ((rebuildTree "/n" (FsNode.dir "n" [FsNode.file "x"]) 5).1.length : Int) - 1) :=
  c4_rebuild_clamps_nonneg "/n" (FsNode.dir "n" [FsNode.file "x"]) 5 (by omega)

/-- C10: for every directory state, a previous selection index still
within bounds of the newly flattened sequence is left unchanged by
`rebuildTree`, and the index is only ever moved when it is at or past the
new length. -/
theorem c10_rebuild_keeps_in_bounds_index (dir : String) (tree : FsNode) (prev : Int) :
    (prev < ((rebuildTree dir tree prev).1.length : Int) →
      (rebuildTree dir tree prev).2 = prev) ∧
    ((rebuildTree dir tree prev).2 ≠ prev →
      prev ≥ ((rebuildTree dir tree prev).1.length : Int)) := by
  rw [rebuildTree_eq]
  by_cases h : prev ≥ ((flattenTree (buildTree dir tree) []).length : Int) <;> simp [h]

/-- C10 witness: in a two-entry tree the in-bounds index 1 is preserved by
a rebuild. -/
theorem c10_witness :
    (rebuildTree "/n" (FsNode.dir "n" [FsNode.file "x"]) 1).2 = 1 :=
  (c10_rebuild_keeps_in_bounds_index "/n" (FsNode.dir "n" [FsNode.file "x"]) 1).1
    (by simp [rebuildTree, flattenTree, flattenChildren, buildTree, buildChildren])

/-! ## Tree building and flattening (claims C2, C3) -/

/-- Simultaneous induction for the nested inductive `FsNode`. -/
theorem fsNodeInd (P : FsNode → Prop) (Q : List FsNode → Prop)
    (hf : ∀ n, P (.file n)) (hd : ∀ n es, Q es → P (.dir n es))
    (h0 : Q []) (h1 : ∀ e es, P e → Q es → Q (e :: es)) :
    (∀ t, P t) ∧ (∀ l, Q l) := by
  have key : ∀ n : Nat,
      (∀ t : FsNode, sizeOf t ≤ n → P t) ∧ (∀ l : List FsNode, sizeOf l ≤ n → Q l) := by
    intro n
    induction n with
    | zero =>
      constructor
      · intro t ht
        cases t <;> simp at ht
      · intro l hl
        cases l with
        | nil => exact h0
        | cons e es => simp at hl
    | succ n ih =>
      constructor
      · intro t ht
        cases t with
        | file s => exact hf s
        | dir s es =>
          apply hd
          apply ih.2
          simp at ht
          omega
      · intro l hl
        cases l with
        | nil => exact h0
        | cons e es =>
          simp at hl
          exact h1 e es (ih.1 e (by omega)) (ih.2 es (by omega))
  exact ⟨fun t => (key (sizeOf t)).1 t le_rfl, fun l => (key (sizeOf l)).2 l le_rfl⟩

/-- Simultaneous induction for the nested structure `TreeItem`. -/
theorem treeItemInd (P : TreeItem → Prop) (Q : List TreeItem → Prop)
    (hmk : ∀ t : TreeItem, Q t.Children → P t)
    (h0 : Q []) (h1 : ∀ c cs, P c → Q cs → Q (c :: cs)) :
    (∀ t, P t) ∧ (∀ l, Q l) := by
  have key : ∀ n : Nat,
      (∀ t : TreeItem, sizeOf t ≤ n → P t) ∧ (∀ l : List TreeItem, sizeOf l ≤ n → Q l) := by
    intro n
    induction n with
    | zero =>
      constructor
      · intro t ht
        cases t <;> simp at ht
      · intro l hl
        cases l with
        | nil => exact h0
        | cons c cs => simp at hl
    | succ n ih =>
      constructor
      · intro t ht
        apply hmk
        apply ih.2
        cases t with
        | mk d p c il pf => simp at ht ⊢; omega
      · intro l hl
        cases l with
        | nil => exact h0
        | cons c cs =>
          simp at hl
          exact h1 c cs (ih.1 c (by omega)) (ih.2 cs (by omega))
  exact ⟨fun t => (key (sizeOf t)).1 t le_rfl, fun l => (key (sizeOf l)).2 l le_rfl⟩

theorem buildTree_path (path : String) (T : FsNode) : (buildTree path T).Path = path := by
  cases T <;> rw [buildTree]

theorem flattenChildren_cons (c : TreeItem) (cs : List TreeItem) (p : List Bool) :
    flattenChildren (c :: cs) p = flattenTree c (p ++ [!cs.isEmpty]) ++ flattenChildren cs p := by
  rw [flattenChildren]

theorem flattenTree_map_path (item : TreeItem) (pfx : List Bool) :
    (flattenTree item pfx).map (fun e => e.Path) =
      item.Path :: (flattenChildren item.Children pfx).map (fun e => e.Path) := by
  rw [flattenTree_cons]
  simp

/-- Flattening a built tree lists exactly the pre-order paths of the
scanned filesystem nodes. -/
theorem c2core :
    (∀ T : FsNode, ∀ path : String, ∀ pfx : List Bool,
      (flattenTree (buildTree path T) pfx).map (fun e => e.Path) = preorderPaths path T)
    ∧ (∀ l : List FsNode, ∀ path : String, ∀ pfx : List Bool,
      (flattenChildren (buildChildren path l) pfx).map (fun e => e.Path) = preorderList path l) := by
  apply fsNodeInd
  · intro n path pfx
    rw [buildTree, flattenTree_cons, preorderPaths]
    simp [flattenChildren]
  · intro n es ih path pfx
    rw [buildTree, flattenTree_map_path, preorderPaths]
    rw [ih path pfx]
  · intro path pfx
    rw [buildChildren, preorderList]
    simp [flattenChildren]
  · intro e es ihe ihes path pfx
    rw [buildChildren]
    rw [flattenChildren_cons, List.map_append, ihes path pfx]
    have he := ihe (goJoin2 path (fsName e)) (pfx ++ [!(buildChildren path es).isEmpty])
    rw [flattenTree_map_path, buildTree_path] at he
    rw [flattenTree_map_path]
    rw [preorderList]
    rw [← he]

theorem preorderPaths_length :
    (∀ T : FsNode, ∀ path : String, (preorderPaths path T).length = nodeCount T)
    ∧ (∀ l : List FsNode, ∀ path : String, (preorderList path l).length = nodeCountList l) := by
  apply fsNodeInd
  · intro n path
    rw [preorderPaths, nodeCount]
    rfl
  · intro n es ih path
    rw [preorderPaths, nodeCount]
    simp [ih path]
    omega
  · intro path
    rw [preorderList, nodeCountList]
    rfl
  · intro e es ihe ihes path
    rw [preorderList, nodeCountList]
    simp [ihe, ihes]

/-- C2: for every directory tree, flattening the built tree produces
exactly one entry per filesystem node (the length is the node count), the
root first, children in OS listing order, depth-first pre-order: the entry
paths are exactly the pre-order path listing of the tree. -/
theorem c2_flatten_build_preorder (path : String) (T : FsNode) :
    (flattenTree (buildTree path T) []).map (fun e => e.Path) = preorderPaths path T ∧
    (flattenTree (buildTree path T) []).length = nodeCount T := by
  refine ⟨c2core.1 T path [], ?_⟩
  have h := congrArg List.length (c2core.1 T path [])
  simpa [preorderPaths_length.1 T path] using h

/-- Core invariants of the prefix stamping done by `flattenTree`. -/
theorem c3core :
    (∀ t : TreeItem, ∀ pfx : List Bool,
      (flattenTree t pfx).map (fun e => e.Prefixes) = prefAssign pfx t ∧
      (flattenTree t pfx).map (fun e => e.Prefixes.length) = depthsOf pfx.length t)
    ∧ (∀ l : List TreeItem, ∀ pfx : List Bool,
      (flattenChildren l pfx).map (fun e => e.Prefixes) = prefChildren pfx l ∧
      (flattenChildren l pfx).map (fun e => e.Prefixes.length) =
        depthsChildren (pfx.length + 1) l) := by
  apply treeItemInd
  · intro t ih pfx
    constructor
    · rw [flattenTree_cons, prefAssign, List.map_cons]
      rw [(ih pfx).1]
    · rw [flattenTree_cons, depthsOf, List.map_cons]
      rw [(ih pfx).2]
  · intro pfx
    constructor
    · rw [flattenChildren, prefChildren]
      rfl
    · rw [flattenChildren, depthsChildren]
      rfl
  · intro c cs ihc ihcs pfx
    constructor
    · rw [flattenChildren_cons, List.map_append, prefChildren]
      rw [(ihc (pfx ++ [!cs.isEmpty])).1, (ihcs pfx).1]
    · rw [flattenChildren_cons, List.map_append, depthsChildren]
      have h1 := (ihc (pfx ++ [!cs.isEmpty])).2
      simp only [List.length_append, List.length_cons, List.length_nil, Nat.zero_add] at h1
      rw [h1, (ihcs pfx).2]

/-- C3: for every tree flattened from the root (empty ancestor prefix),
each entry's prefix sequence length equals its depth (root zero), and the
prefix sequences are exactly the assignment in which each child's sequence
is its parent's with one boolean appended, true exactly when the child is
not the last child of its parent (`prefAssign`). -/
theorem c3_prefix_invariants (item : TreeItem) :
    (flattenTree item []).map (fun e => e.Prefixes) = prefAssign [] item ∧
    (flattenTree item []).map (fun e => e.Prefixes.length) = depthsOf 0 item :=
  ⟨(c3core.1 item []).1, (c3core.1 item []).2⟩


/-! ## The path resolver (claims C1, C5, C6)

The lemmas below characterize the segment structure of `filepath.Clean`
outputs (a leading `..` run followed by ordinary elements, none for rooted
paths), show `cleanSegs` is invariant under `clean`, reconstruct
`rawSegs`/`isRooted` from the reassembled string, and analyse
`filepath.Rel` on a root and a root-joined cleaned candidate. -/


theorem splitOnChar_ne_nil (sep : Char) (l : List Char) : splitOnChar sep l ≠ [] := by
  cases l with
  | nil => simp [splitOnChar]
  | cons c rest =>
    rw [splitOnChar]
    by_cases h : c = sep
    · simp [h]
    · simp only [if_neg h]
      cases hs : splitOnChar sep rest <;> simp

theorem splitOnChar_sep_not_mem (sep : Char) (l : List Char) :
    ∀ seg ∈ splitOnChar sep l, sep ∉ seg := by
  induction l with
  | nil =>
    intro seg hseg
    simp [splitOnChar] at hseg
    simp [hseg]
  | cons c rest ih =>
    intro seg hseg
    rw [splitOnChar] at hseg
    by_cases h : c = sep
    · rw [if_pos h] at hseg
      cases hseg with
      | head => simp
      | tail _ hmem => exact ih seg hmem
    · rw [if_neg h] at hseg
      cases hs : splitOnChar sep rest with
      | nil => exact absurd hs (splitOnChar_ne_nil sep rest)
      | cons s ss =>
        rw [hs] at hseg
        cases hseg with
        | head =>
          intro hc
          cases hc with
          | head => exact h rfl
          | tail _ hmem => exact ih s (hs ▸ List.mem_cons_self s ss) hmem
        | tail _ hmem => exact ih seg (hs ▸ List.mem_cons_of_mem s hmem)

theorem splitOnChar_append (sep : Char) (a b : List Char) :
    splitOnChar sep (a ++ sep :: b) = splitOnChar sep a ++ splitOnChar sep b := by
  induction a with
  | nil =>
    rw [List.nil_append, splitOnChar]
    simp [splitOnChar]
  | cons c rest ih =>
    rw [List.cons_append, splitOnChar, splitOnChar]
    by_cases h : c = sep
    · rw [if_pos h, if_pos h, ih]
      rfl
    · rw [if_neg h, if_neg h, ih]
      cases hs : splitOnChar sep rest with
      | nil => exact absurd hs (splitOnChar_ne_nil sep rest)
      | cons s ss => rfl

theorem splitOnChar_no_sep (sep : Char) (l : List Char) (h : sep ∉ l) :
    splitOnChar sep l = [l] := by
  induction l with
  | nil => rfl
  | cons c rest ih =>
    rw [splitOnChar]
    have hc : c ≠ sep := fun hc => h (hc ▸ List.mem_cons_self c rest)
    rw [if_neg hc, ih (fun hm => h (List.mem_cons_of_mem c hm))]

theorem string_data_append (a b : String) : (a ++ b).data = a.data ++ b.data := by
  cases a
  cases b
  rfl

theorem string_mk_data (s : String) : (⟨s.data⟩ : String) = s := by
  cases s
  rfl

/-- Wellformedness of one cleaned path element: non-empty, not `.`, and
separator-free. -/
def SegWF (x : String) : Prop := x ≠ "" ∧ x ≠ "." ∧ '/' ∉ x.data

theorem rawSegs_append (a b : String) :
    rawSegs (a ++ "/" ++ b) = rawSegs a ++ rawSegs b := by
  unfold rawSegs
  rw [string_data_append, string_data_append]
  rw [show ("/" : String).data = ['/'] from rfl]
  rw [List.append_assoc, List.singleton_append, splitOnChar_append]
  rw [List.map_append, List.filter_append]

theorem rawSegs_wf (s : String) : ∀ x ∈ rawSegs s, SegWF x := by
  intro x hx
  unfold rawSegs at hx
  rw [List.mem_filter] at hx
  obtain ⟨hmem, hne⟩ := hx
  rw [List.mem_map] at hmem
  obtain ⟨seg, hseg, rfl⟩ := hmem
  simp only [decide_eq_true_eq, Bool.and_eq_true] at hne
  refine ⟨by simpa using hne.1, by simpa using hne.2, ?_⟩
  exact splitOnChar_sep_not_mem '/' s.data seg hseg

theorem runStack_append (R : Bool) (stk : List String) (xs ys : List String) :
    runStack R stk (xs ++ ys) = runStack R (runStack R stk xs) ys := by
  induction xs generalizing stk with
  | nil => rfl
  | cons x xs ih => rw [List.cons_append, runStack, runStack, ih]

theorem runStack1_push (R : Bool) (stk : List String) (seg : String) (h : seg ≠ "..") :
    runStack1 R stk seg = seg :: stk := by
  simp [runStack1, h]

theorem runStack1_dd_nil (R : Bool) :
    runStack1 R [] ".." = if R then [] else [".."] := by
  simp [runStack1]

theorem runStack1_dd_top_dd (R : Bool) (top : String) (stk : List String) (h : top = "..") :
    runStack1 R (top :: stk) ".." = ".." :: top :: stk := by
  simp [runStack1, h]

theorem runStack1_dd_pop (R : Bool) (top : String) (stk : List String) (h : top ≠ "..") :
    runStack1 R (top :: stk) ".." = stk := by
  simp [runStack1, h]

theorem runStack1_mem (R : Bool) (stk : List String) (seg : String) :
    ∀ x ∈ runStack1 R stk seg, x ∈ stk ∨ x = seg ∨ x = ".." := by
  intro x hx
  by_cases hseg : seg = ".."
  · subst hseg
    cases stk with
    | nil =>
      rw [runStack1_dd_nil] at hx
      by_cases hr : R
      · rw [if_pos hr] at hx
        simp at hx
      · rw [if_neg hr] at hx
        simp at hx
        exact Or.inr (Or.inr hx)
    | cons top stk =>
      by_cases ht : top = ".."
      · rw [runStack1_dd_top_dd R top stk ht] at hx
        cases hx with
        | head => exact Or.inr (Or.inr rfl)
        | tail _ hm => exact Or.inl hm
      · rw [runStack1_dd_pop R top stk ht] at hx
        exact Or.inl (List.mem_cons_of_mem top hx)
  · rw [runStack1_push R stk seg hseg] at hx
    cases hx with
    | head => exact Or.inr (Or.inl rfl)
    | tail _ hm => exact Or.inl hm

theorem runStack_mem (R : Bool) (l : List String) :
    ∀ stk, ∀ x ∈ runStack R stk l, x ∈ stk ∨ x ∈ l ∨ x = ".." := by
  induction l with
  | nil =>
    intro stk x hx
    rw [runStack] at hx
    exact Or.inl hx
  | cons seg rest ih =>
    intro stk x hx
    rw [runStack] at hx
    rcases ih (runStack1 R stk seg) x hx with h | h | h
    · rcases runStack1_mem R stk seg x h with h2 | h2 | h2
      · exact Or.inl h2
      · exact Or.inr (Or.inl (h2 ▸ List.mem_cons_self seg rest))
      · exact Or.inr (Or.inr h2)
    · exact Or.inr (Or.inl (List.mem_cons_of_mem seg h))
    · exact Or.inr (Or.inr h)

/-- Processing elements from a stack of shape `pre ++ [".."]*j` (with no
`..` in `pre`) preserves that shape, and the `..`-run at the bottom never
shrinks; rooted processing never creates a `..`. -/
theorem runStack_form (R : Bool) (l : List String) :
    ∀ (pre : List String) (j : Nat), ".." ∉ pre → (R = true → j = 0) →
    ∃ pre2 j2, runStack R (pre ++ List.replicate j "..") l =
        pre2 ++ List.replicate j2 ".." ∧ ".." ∉ pre2 ∧ j ≤ j2 ∧ (R = true → j2 = 0) := by
  induction l with
  | nil =>
    intro pre j hp hr
    exact ⟨pre, j, rfl, hp, le_rfl, hr⟩
  | cons seg rest ih =>
    intro pre j hp hr
    rw [runStack]
    by_cases hseg : seg = ".."
    · subst hseg
      cases hpre : pre with
      | nil =>
        subst hpre
        cases hj : j with
        | zero =>
          subst hj
          rw [show ([] : List String) ++ List.replicate 0 ".." = [] from rfl, runStack1_dd_nil]
          by_cases hRv : R
          · rw [if_pos hRv]
            obtain ⟨p2, j2, h1, h2, h3, h4⟩ := ih [] 0 (by simp) (fun _ => rfl)
            exact ⟨p2, j2, by simpa using h1, h2, by omega, h4⟩
          · rw [if_neg hRv]
            obtain ⟨p2, j2, h1, h2, h3, h4⟩ := ih [] 1 (by simp)
              (fun h => absurd h hRv)
            refine ⟨p2, j2, ?_, h2, by omega, h4⟩
            rw [show ([".."] : List String) = [] ++ List.replicate 1 ".." from rfl]
            exact h1
        | succ j' =>
          subst hj
          rw [List.nil_append, List.replicate_succ,
            runStack1_dd_top_dd R ".." (List.replicate j' "..") rfl]
          have hR2 : R = false := by
            cases hRv : R
            · rfl
            · exact absurd (hr hRv) (by omega)
          obtain ⟨p2, j2, h1, h2, h3, h4⟩ := ih [] (j' + 2)
            (by simp) (fun h => absurd h (by rw [hR2]; simp))
          refine ⟨p2, j2, ?_, h2, by omega, h4⟩
          rw [show (".." :: ".." :: List.replicate j' ".." : List String) =
            [] ++ List.replicate (j' + 2) ".." from by
              simp [List.replicate_succ]]
          exact h1
      | cons t pre' =>
        subst hpre
        have ht : t ≠ ".." := fun h => hp (h ▸ List.mem_cons_self t pre')
        rw [List.cons_append, runStack1_dd_pop R t (pre' ++ List.replicate j "..") ht]
        obtain ⟨p2, j2, h1, h2, h3, h4⟩ := ih pre' j
          (fun h => hp (List.mem_cons_of_mem t h)) hr
        exact ⟨p2, j2, h1, h2, h3, h4⟩
    · rw [runStack1_push _ _ _ hseg]
      obtain ⟨p2, j2, h1, h2, h3, h4⟩ := ih (seg :: pre) j
        (by
          intro h
          cases h with
          | head => exact hseg rfl
          | tail _ hm => exact hp hm) hr
      exact ⟨p2, j2, by simpa using h1, h2, h3, h4⟩

/-- Processing a `..`-free element list just pushes every element. -/
theorem runStack_no_dd (R : Bool) (l : List String) (h : ".." ∉ l) :
    ∀ stk, runStack R stk l = l.reverse ++ stk := by
  induction l with
  | nil => intro stk; rfl
  | cons seg rest ih =>
    intro stk
    have hs : seg ≠ ".." := fun he => h (he ▸ List.mem_cons_self seg rest)
    rw [runStack, runStack1_push _ _ _ hs,
      ih (fun hm => h (List.mem_cons_of_mem seg hm)) (seg :: stk)]
    simp

/-- Processing an already-clean relative list (`..`-run then `..`-free
elements) from a `..`-only stack. -/
theorem runStack_dots (m : List String) (hm : ".." ∉ m) (k : Nat) :
    ∀ j, runStack false (List.replicate j "..") (List.replicate k ".." ++ m) =
      m.reverse ++ List.replicate (j + k) ".." := by
  induction k with
  | zero =>
    intro j
    simpa using runStack_no_dd false m hm (List.replicate j "..")
  | succ k ih =>
    intro j
    rw [List.replicate_succ, List.cons_append, runStack]
    cases hj : j with
    | zero =>
      subst hj
      rw [show List.replicate 0 ".." = ([] : List String) from rfl, runStack1_dd_nil,
        if_neg (by simp)]
      rw [show ([".."] : List String) = List.replicate 1 ".." from rfl, ih 1]
      rw [show 1 + k = 0 + (k + 1) from by omega]
    | succ j' =>
      subst hj
      rw [List.replicate_succ, runStack1_dd_top_dd false ".." (List.replicate j' "..") rfl]
      rw [show (".." :: ".." :: List.replicate j' ".." : List String) =
        List.replicate (j' + 2) ".." from by simp [List.replicate_succ]]
      rw [ih (j' + 2)]
      rw [show j' + 2 + k = j' + 1 + (k + 1) from by omega]

theorem joinPath_cons_cons (a b : String) (l : List String) :
    joinPath (a :: b :: l) = a ++ "/" ++ joinPath (b :: l) := by
  rfl

theorem splitOnChar_joinPath (L : List String) (hne : L ≠ [])
    (hwf : ∀ x ∈ L, '/' ∉ x.data) :
    splitOnChar '/' (joinPath L).data = L.map String.data := by
  induction L with
  | nil => exact absurd rfl hne
  | cons a rest ih =>
    cases rest with
    | nil =>
      rw [show joinPath [a] = a from rfl]
      rw [splitOnChar_no_sep '/' a.data (hwf a (List.mem_cons_self a []))]
      rfl
    | cons b l =>
      rw [joinPath_cons_cons, string_data_append, string_data_append]
      rw [show ("/" : String).data = ['/'] from rfl]
      rw [List.append_assoc, List.singleton_append, splitOnChar_append]
      rw [splitOnChar_no_sep '/' a.data (hwf a (List.mem_cons_self a (b :: l)))]
      rw [ih (by simp) (fun x hx => hwf x (List.mem_cons_of_mem a hx))]
      rfl

theorem rawSegs_joinSegs (R : Bool) (L : List String) (hwf : ∀ x ∈ L, SegWF x) :
    rawSegs (joinSegs R L) = L := by
  have hfilter : List.filter (fun x => decide (x ≠ "" ∧ x ≠ ".")) L = L := by
    apply List.filter_eq_self.mpr
    intro x hx
    simp only [decide_eq_true_eq]
    exact ⟨(hwf x hx).1, (hwf x hx).2.1⟩
  have hmapmk : ∀ M : List String, (M.map String.data).map (fun l => (⟨l⟩ : String)) = M := by
    intro M
    induction M with
    | nil => rfl
    | cons a as iha =>
      rw [List.map_cons, List.map_cons, iha, string_mk_data]
  unfold joinSegs
  by_cases hR : R
  · rw [if_pos hR]
    unfold rawSegs
    rw [string_data_append, show ("/" : String).data = ['/'] from rfl, List.singleton_append]
    rw [show ('/' :: (joinPath L).data : List Char) = [] ++ '/' :: (joinPath L).data from rfl]
    rw [splitOnChar_append]
    cases hL : L with
    | nil => rfl
    | cons a rest =>
      rw [← hL, splitOnChar_joinPath L (by rw [hL]; simp) (fun x hx => (hwf x hx).2.2)]
      rw [show splitOnChar '/' ([] : List Char) = [[]] from rfl]
      rw [List.singleton_append, List.map_cons, hmapmk L]
      rw [show List.filter (fun x => decide (x ≠ "" ∧ x ≠ ".")) ((⟨[]⟩ : String) :: L) =
        List.filter (fun x => decide (x ≠ "" ∧ x ≠ ".")) L from by
          rw [List.filter_cons]
          simp]
      exact hfilter
  · rw [if_neg hR]
    by_cases hL : L = []
    · rw [if_pos hL, hL]
      rfl
    · rw [if_neg hL]
      unfold rawSegs
      rw [splitOnChar_joinPath L hL (fun x hx => (hwf x hx).2.2)]
      rw [hmapmk L]
      exact hfilter

theorem isRooted_data_cons (s : String) (c : Char) (cs : List Char)
    (hdata : s.data = c :: cs) (hc : c ≠ '/') : isRooted s = false := by
  unfold isRooted
  rw [hdata]
  cases hcc : c <;> simp_all [Char.ext_iff]

theorem isRooted_joinSegs (R : Bool) (L : List String) (hwf : ∀ x ∈ L, SegWF x) :
    isRooted (joinSegs R L) = R := by
  unfold joinSegs
  by_cases hR : R
  · rw [if_pos hR, hR]
    unfold isRooted
    rw [string_data_append, show ("/" : String).data = ['/'] from rfl, List.singleton_append]
    rfl
  · rw [if_neg hR]
    by_cases hL : L = []
    · rw [if_pos hL]
      rw [show R = false from by simpa using hR]
      rfl
    · rw [if_neg hL]
      cases L with
      | nil => exact absurd rfl hL
      | cons a rest =>
        have ha := hwf a (List.mem_cons_self a rest)
        cases hdata : a.data with
        | nil =>
          exfalso
          apply ha.1
          cases a with
          | mk d =>
            simp only [String.data] at hdata
            rw [hdata]
        | cons c cs =>
          have hc : c ≠ '/' := by
            intro h
            exact ha.2.2 (hdata ▸ h ▸ List.mem_cons_self c cs)
          rw [show R = false from by simpa using hR]
          cases rest with
          | nil => exact isRooted_data_cons a c cs hdata hc
          | cons b l =>
            apply isRooted_data_cons _ c (cs ++ '/' :: (joinPath (b :: l)).data) _ hc
            rw [joinPath_cons_cons, string_data_append, string_data_append, hdata]
            simp

theorem segWF_dotdot : SegWF ".." := by
  refine ⟨by decide, by decide, by decide⟩

theorem cleanSegs_wf (s : String) : ∀ x ∈ (cleanSegs s).2, SegWF x := by
  intro x hx
  unfold cleanSegs at hx
  rw [List.mem_reverse] at hx
  rcases runStack_mem (isRooted s) (rawSegs s) [] x hx with h | h | h
  · simp at h
  · exact rawSegs_wf s x h
  · exact h ▸ segWF_dotdot

theorem cleanSegs_form (s : String) :
    ∃ k m, (cleanSegs s).2 = List.replicate k ".." ++ m ∧ ".." ∉ m ∧
      (isRooted s = true → k = 0) := by
  obtain ⟨pre2, j2, h1, h2, h3, h4⟩ :=
    runStack_form (isRooted s) (rawSegs s) [] 0 (by simp) (fun _ => rfl)
  rw [show ([] : List String) ++ List.replicate 0 ".." = [] from rfl] at h1
  refine ⟨j2, pre2.reverse, ?_, by simpa using h2, h4⟩
  unfold cleanSegs
  rw [h1, List.reverse_append, List.reverse_replicate]

theorem cleanSegs_fst (s : String) : (cleanSegs s).1 = isRooted s := rfl

theorem clean_def (s : String) : clean s = joinSegs (isRooted s) (cleanSegs s).2 := rfl

theorem isRooted_clean (s : String) : isRooted (clean s) = isRooted s := by
  rw [clean_def]
  exact isRooted_joinSegs (isRooted s) (cleanSegs s).2 (cleanSegs_wf s)

theorem cleanSegs_clean (s : String) : cleanSegs (clean s) = cleanSegs s := by
  obtain ⟨k, m, hform, hm, hk⟩ := cleanSegs_form s
  have hwf := cleanSegs_wf s
  have h1 : (cleanSegs (clean s)).1 = (cleanSegs s).1 := by
    rw [cleanSegs_fst, cleanSegs_fst, isRooted_clean]
  have hraw : rawSegs (clean s) = (cleanSegs s).2 := by
    rw [clean_def]
    exact rawSegs_joinSegs (isRooted s) (cleanSegs s).2 hwf
  have hsnd : ∀ t : String, (cleanSegs t).2 = (runStack (isRooted t) [] (rawSegs t)).reverse :=
    fun t => rfl
  have h2 : (cleanSegs (clean s)).2 = (cleanSegs s).2 := by
    rw [hsnd (clean s), hraw, isRooted_clean, hform]
    by_cases hR : isRooted s
    · rw [hR]
      rw [show k = 0 from hk (by simpa using hR), List.replicate_zero, List.nil_append]
      rw [runStack_no_dd true m hm []]
      simp
    · rw [show isRooted s = false from by simpa using hR]
      have hd := runStack_dots m hm k 0
      rw [show List.replicate 0 ".." = ([] : List String) from rfl] at hd
      rw [hd]
      rw [List.reverse_append, List.reverse_reverse, List.reverse_replicate]
      simp
  rcases hp : cleanSegs (clean s) with ⟨a, b⟩
  rcases hq : cleanSegs s with ⟨c, d⟩
  rw [hp, hq] at h1 h2
  simp at h1 h2
  rw [h1, h2]

theorem dropCommon_nil_left (ts : List String) : dropCommon [] ts = ([], ts) := by
  cases ts <;> rfl

theorem dropCommon_same (c : List String) (a b : List String) :
    dropCommon (c ++ a) (c ++ b) = dropCommon a b := by
  induction c with
  | nil => rfl
  | cons x c ih =>
    rw [List.cons_append, List.cons_append, dropCommon]
    rw [if_pos rfl, ih]

theorem segsLe_of_dropCommon_nil (a : List String) :
    ∀ b, (dropCommon a b).1 = [] → segsLe a b = true := by
  induction a with
  | nil => intro b _; rfl
  | cons x a ih =>
    intro b h
    cases b with
    | nil =>
      rw [show dropCommon (x :: a) [] = (x :: a, []) from rfl] at h
      simp at h
    | cons y b =>
      rw [dropCommon] at h
      by_cases hxy : x = y
      · rw [if_pos hxy] at h
        rw [segsLe, hxy]
        simp [ih b h]
      · rw [if_neg hxy] at h
        simp at h

theorem dropCommon_fst_mem (a : List String) :
    ∀ b, ∀ x ∈ (dropCommon a b).1, x ∈ a := by
  induction a with
  | nil =>
    intro b x hx
    rw [dropCommon_nil_left] at hx
    simp at hx
  | cons s a ih =>
    intro b x hx
    cases b with
    | nil =>
      rw [show dropCommon (s :: a) [] = (s :: a, []) from rfl] at hx
      exact hx
    | cons y b =>
      rw [dropCommon] at hx
      by_cases hxy : s = y
      · rw [if_pos hxy] at hx
        exact List.mem_cons_of_mem s (ih b x hx)
      · rw [if_neg hxy] at hx
        exact hx

theorem segsLe_refl (a : List String) : segsLe a a = true := by
  induction a with
  | nil => rfl
  | cons x a ih => simp [segsLe, ih]

theorem isPrefixOf_self_append (p t : List Char) : p.isPrefixOf (p ++ t) = true := by
  induction p with
  | nil => cases t <;> rfl
  | cons c p ih => simpa [List.isPrefixOf] using ih

theorem isPrefixOf_exists (p : List Char) :
    ∀ l, p.isPrefixOf l = true → ∃ t, l = p ++ t := by
  induction p with
  | nil => intro l _; exact ⟨l, rfl⟩
  | cons c p ih =>
    intro l h
    cases l with
    | nil => simp [List.isPrefixOf] at h
    | cons d l =>
      simp only [List.isPrefixOf, Bool.and_eq_true, beq_iff_eq] at h
      obtain ⟨t, ht⟩ := ih l h.2
      exact ⟨t, by rw [h.1, ht]; rfl⟩

theorem isRooted_append_of_ne (r x : String) (hr : r ≠ "") :
    isRooted (r ++ x) = isRooted r := by
  cases r with
  | mk d =>
    cases d with
    | nil => exact absurd rfl hr
    | cons c cs =>
      unfold isRooted
      rw [string_data_append]
      rfl

theorem isRooted_eq_head (c : Char) (cs : List Char) (s : String) (hdata : s.data = c :: cs) :
    isRooted s = decide (c = '/') := by
  unfold isRooted
  rw [hdata]

theorem ne_empty_of_isRooted (s : String) (h : isRooted s = true) : s ≠ "" := by
  intro he
  rw [he] at h
  simp [isRooted] at h

theorem goHasPrefix_tilde_of_rooted (s : String) (h : isRooted s = true) :
    goHasPrefix s "~" = false := by
  unfold goHasPrefix
  cases hd : s.data with
  | nil =>
    unfold isRooted at h
    rw [hd] at h
    simp at h
  | cons c cs =>
    rw [isRooted_eq_head c cs s hd] at h
    have hc : c = '/' := by simpa using h
    rw [show ("~" : String).data = ['~'] from rfl]
    simp [List.isPrefixOf, hc]

theorem goJoin2_ne_ne (a b : String) (ha : a ≠ "") (hb : b ≠ "") :
    goJoin2 a b = clean (a ++ "/" ++ b) := by
  unfold goJoin2
  rw [if_neg (by simp [ha]), if_neg ha, if_neg hb]

theorem goJoin2_right_empty (a : String) (ha : a ≠ "") :
    goJoin2 a "" = clean a := by
  unfold goJoin2
  rw [if_neg (by simp [ha]), if_neg ha, if_pos rfl]

/-- A relative result that climbs (`..` first element) is caught by the
escape test of main.go:238. -/
theorem relCheck_dd_head (l : List String) :
    goHasPrefix (joinPath (".." :: l)) (".." ++ "/") = true ∨ joinPath (".." :: l) = ".." := by
  cases l with
  | nil => exact Or.inr rfl
  | cons b l2 =>
    left
    rw [joinPath_cons_cons]
    unfold goHasPrefix
    rw [show ((".." ++ "/" : String)).data = ['.', '.', '/'] from rfl]
    rw [show ((".." ++ "/") ++ joinPath (b :: l2)).data =
      ['.', '.', '/'] ++ (joinPath (b :: l2)).data from by rw [string_data_append]; rfl]
    exact isPrefixOf_self_append _ _

/-- A relative result made of ordinary elements (no `..`) passes the
escape test of main.go:238. -/
theorem relCheck_clean_tail (t : List String)
    (hwf : ∀ x ∈ t, SegWF x) (hdd : ".." ∉ t) :
    goHasPrefix (if t = [] then "." else joinPath t) (".." ++ "/") = false ∧
    (if t = [] then "." else joinPath t) ≠ ".." := by
  cases t with
  | nil => exact ⟨by decide, by decide⟩
  | cons h rest =>
    rw [if_neg (by simp)]
    have hh := hwf h (List.mem_cons_self h rest)
    have hhd : h ≠ ".." := fun he => hdd (he ▸ List.mem_cons_self h rest)
    obtain ⟨tail, htail, htl⟩ : ∃ tail, (joinPath (h :: rest)).data = h.data ++ tail ∧
        (tail = [] ∨ ∃ X, tail = '/' :: X) := by
      cases rest with
      | nil =>
        refine ⟨[], ?_, Or.inl rfl⟩
        rw [show joinPath [h] = h from rfl, List.append_nil]
      | cons b l2 =>
        refine ⟨'/' :: (joinPath (b :: l2)).data, ?_, Or.inr ⟨_, rfl⟩⟩
        rw [joinPath_cons_cons, string_data_append, string_data_append]
        simp
    have hdd_of : h.data = ['.', '.'] → False := by
      intro hd
      apply hhd
      cases h with
      | mk d =>
        simp only [String.data] at hd
        rw [hd]
    have hempty_of : h.data = [] → False := by
      intro hd
      apply hh.1
      cases h with
      | mk d =>
        simp only [String.data] at hd
        rw [hd]
    constructor
    · by_contra hcon
      rw [Bool.not_eq_false] at hcon
      unfold goHasPrefix at hcon
      rw [show ((".." ++ "/" : String)).data = ['.', '.', '/'] from rfl] at hcon
      obtain ⟨t2, ht2⟩ := isPrefixOf_exists _ _ hcon
      rw [htail] at ht2
      cases hd : h.data with
      | nil => exact hempty_of hd
      | cons c1 d1 =>
        cases d1 with
        | nil =>
          rw [hd] at ht2
          rcases htl with h0 | ⟨X, hX⟩
          · rw [h0] at ht2
            simp at ht2
          · rw [hX] at ht2
            simp at ht2
        | cons c2 d2 =>
          cases d2 with
          | nil =>
            rw [hd] at ht2
            simp only [List.cons_append, List.nil_append, List.cons.injEq] at ht2
            exact hdd_of (by rw [hd, ht2.1, ht2.2.1])
          | cons c3 d3 =>
            rw [hd] at ht2
            simp only [List.cons_append, List.cons.injEq] at ht2
            apply hh.2.2
            rw [hd, ht2.2.2.1]
            simp
    · intro he
      have hdd2 : (joinPath (h :: rest)).data = ['.', '.'] := by
        rw [he]
      rw [htail] at hdd2
      cases hd : h.data with
      | nil => exact hempty_of hd
      | cons c1 d1 =>
        cases d1 with
        | nil =>
          rw [hd] at hdd2
          rcases htl with h0 | ⟨X, hX⟩
          · rw [h0] at hdd2
            simp at hdd2
          · rw [hX] at hdd2
            simp at hdd2
        | cons c2 d2 =>
          cases d2 with
          | nil =>
            rw [hd] at hdd2
            simp only [List.cons_append, List.nil_append, List.cons.injEq] at hdd2
            exact hdd_of (by rw [hd, hdd2.1, hdd2.2.1])
          | cons c3 d3 =>
            rw [hd] at hdd2
            simp at hdd2

theorem goRel_fst_ne (base targ : String)
    (h : (cleanSegs base).1 ≠ (cleanSegs targ).1) : goRel base targ = none := by
  unfold goRel
  rw [if_pos h]

theorem goRel_of_dropCommon_nil (base targ : String)
    (hfst : (cleanSegs base).1 = (cleanSegs targ).1)
    (hdc : (dropCommon (cleanSegs base).2 (cleanSegs targ).2).1 = []) :
    goRel base targ =
      some (if (dropCommon (cleanSegs base).2 (cleanSegs targ).2).2 = [] then "."
            else joinPath (dropCommon (cleanSegs base).2 (cleanSegs targ).2).2) := by
  unfold goRel
  rw [if_neg (by simp [hfst])]
  simp only [hdc]

theorem goRel_of_dropCommon_cons (base targ : String) (s : String) (rest2 : List String)
    (hfst : (cleanSegs base).1 = (cleanSegs targ).1)
    (hdc : (dropCommon (cleanSegs base).2 (cleanSegs targ).2).1 = s :: rest2)
    (hs : s ≠ "..") :
    goRel base targ =
      some (joinPath (List.replicate (s :: rest2).length ".." ++
        (dropCommon (cleanSegs base).2 (cleanSegs targ).2).2)) := by
  unfold goRel
  rw [if_neg (by simp [hfst])]
  simp only [hdc]
  rw [if_neg hs]

theorem resolver_eval (home : Option String) (p r ip rel : String)
    (hexp : expandTilde home p = .ok ip)
    (hrel : goRel r (clean (goJoin2 r ip)) = some rel) :
    resolveAndValidatePath home p r =
      if goHasPrefix rel (".." ++ "/") = true ∨ rel = ".."
      then .error "Path must be within the notes directory"
      else .ok (clean (goJoin2 r ip)) := by
  unfold resolveAndValidatePath
  rw [hexp]
  simp only [hrel]

theorem resolver_eval_none (home : Option String) (p r ip : String)
    (hexp : expandTilde home p = .ok ip)
    (hrel : goRel r (clean (goJoin2 r ip)) = none) :
    resolveAndValidatePath home p r = .error "Invalid path" := by
  unfold resolveAndValidatePath
  rw [hexp]
  simp only [hrel]

theorem string_append_ne_left (r x : String) (hr : r ≠ "") : r ++ x ≠ "" := by
  intro h
  apply hr
  cases r with
  | mk d =>
    cases x with
    | mk e =>
      have hde : d ++ e = [] := by
        have := congrArg String.data h
        simpa [string_data_append] using this
      have hd : d = [] := (List.append_eq_nil.mp hde).1
      rw [hd]

theorem resolved_fst (r ip : String) (hr : r ≠ "") :
    (cleanSegs (clean (goJoin2 r ip))).1 = (cleanSegs r).1 := by
  by_cases hip : ip = ""
  · rw [hip, goJoin2_right_empty r hr, cleanSegs_clean, cleanSegs_clean]
  · rw [cleanSegs_fst, cleanSegs_fst, isRooted_clean]
    rw [goJoin2_ne_ne r ip hr hip, isRooted_clean]
    rw [isRooted_append_of_ne _ ip (string_append_ne_left r "/" hr),
      isRooted_append_of_ne _ "/" hr]

theorem resolved_snd (r ip : String) (hr : r ≠ "") (hip : ip ≠ "") :
    (cleanSegs (clean (goJoin2 r ip))).2 =
      (runStack (isRooted r) (runStack (isRooted r) [] (rawSegs r)) (rawSegs ip)).reverse := by
  rw [goJoin2_ne_ne r ip hr hip, cleanSegs_clean, cleanSegs_clean]
  have hroot : isRooted (r ++ "/" ++ ip) = isRooted r := by
    rw [isRooted_append_of_ne _ ip (string_append_ne_left r "/" hr),
      isRooted_append_of_ne _ "/" hr]
  show (runStack (isRooted (r ++ "/" ++ ip)) [] (rawSegs (r ++ "/" ++ ip))).reverse = _
  rw [hroot, rawSegs_append, runStack_append]

/-- Core of C1, outside case: when the cleaned candidate is not the root
or one of its descendants, `filepath.Rel` yields a climbing relative path
that the escape test catches. -/
theorem resolver_boundary_core (r ip : String) (hr : r ≠ "")
    (hout : isDescendantOrSelf r (clean (goJoin2 r ip)) = false) :
    ∃ rel, goRel r (clean (goJoin2 r ip)) = some rel ∧
      (goHasPrefix rel (".." ++ "/") = true ∨ rel = "..") := by
  have hfst : (cleanSegs r).1 = (cleanSegs (clean (goJoin2 r ip))).1 :=
    (resolved_fst r ip hr).symm
  have hnle : segsLe (cleanSegs r).2 (cleanSegs (clean (goJoin2 r ip))).2 = false := by
    unfold isDescendantOrSelf at hout
    rw [hfst] at hout
    simpa using hout
  by_cases hip : ip = ""
  · exfalso
    have hsegs : cleanSegs (clean (goJoin2 r ip)) = cleanSegs r := by
      rw [hip, goJoin2_right_empty r hr, cleanSegs_clean, cleanSegs_clean]
    rw [hsegs, segsLe_refl] at hnle
    exact absurd hnle (by decide)
  · have hsnd := resolved_snd r ip hr hip
    obtain ⟨k, m, hform, hm, hk⟩ := cleanSegs_form r
    have hS0 : runStack (isRooted r) [] (rawSegs r) = m.reverse ++ List.replicate k ".." := by
      have h1 : (runStack (isRooted r) [] (rawSegs r)).reverse = List.replicate k ".." ++ m :=
        hform
      calc runStack (isRooted r) [] (rawSegs r)
          = (runStack (isRooted r) [] (rawSegs r)).reverse.reverse := by
            rw [List.reverse_reverse]
        _ = (List.replicate k ".." ++ m).reverse := by rw [h1]
        _ = m.reverse ++ List.replicate k ".." := by
            rw [List.reverse_append, List.reverse_replicate]
    obtain ⟨pre2, j2, hrun, hpre2, hkj, hj2⟩ :=
      runStack_form (isRooted r) (rawSegs ip) m.reverse k (by simpa using hm) hk
    have htS : (cleanSegs (clean (goJoin2 r ip))).2 =
        List.replicate j2 ".." ++ pre2.reverse := by
      rw [hsnd, hS0, hrun, List.reverse_append, List.reverse_replicate]
    have hsplit : List.replicate j2 (".." : String) =
        List.replicate k ".." ++ List.replicate (j2 - k) ".." := by
      rw [← List.replicate_add]
      congr 1
      omega
    have hdc : dropCommon (cleanSegs r).2 (cleanSegs (clean (goJoin2 r ip))).2 =
        dropCommon m (List.replicate (j2 - k) ".." ++ pre2.reverse) := by
      rw [hform, htS, hsplit, List.append_assoc]
      exact dropCommon_same _ _ _
    cases hfstdc : (dropCommon m (List.replicate (j2 - k) ".." ++ pre2.reverse)).1 with
    | nil =>
      exfalso
      have hle : segsLe (cleanSegs r).2 (cleanSegs (clean (goJoin2 r ip))).2 = true := by
        apply segsLe_of_dropCommon_nil
        rw [hdc, hfstdc]
      rw [hle] at hnle
      exact absurd hnle (by decide)
    | cons s rest2 =>
      have hsm : s ∈ m := by
        apply dropCommon_fst_mem m (List.replicate (j2 - k) ".." ++ pre2.reverse)
        rw [hfstdc]
        exact List.mem_cons_self s rest2
      have hs : s ≠ ".." := fun he => hm (he ▸ hsm)
      refine ⟨_, goRel_of_dropCommon_cons r _ s rest2 hfst (by rw [hdc, hfstdc]) hs, ?_⟩
      rw [show List.replicate (s :: rest2).length (".." : String) =
        ".." :: List.replicate rest2.length ".." from by
          rw [List.length_cons, List.replicate_succ]]
      rw [List.cons_append]
      exact relCheck_dd_head _

/-- Core of C1, success case: a returned path is the cleaned root-joined
candidate, and it lies within the root. -/
theorem resolver_ok_core (home : Option String) (p r out : String)
    (hok : resolveAndValidatePath home p r = .ok out) :
    isDescendantOrSelf r out = true ∧
      ∃ ip, expandTilde home p = .ok ip ∧ out = clean (goJoin2 r ip) := by
  unfold resolveAndValidatePath at hok
  cases hexp : expandTilde home p with
  | error e =>
    rw [hexp] at hok
    simp at hok
  | ok ip =>
    rw [hexp] at hok
    cases hrel : goRel r (clean (goJoin2 r ip)) with
    | none =>
      simp only [hrel] at hok
      simp at hok
    | some rel =>
      simp only [hrel] at hok
      by_cases hchk : goHasPrefix rel (".." ++ "/") = true ∨ rel = ".."
      · rw [if_pos hchk] at hok
        simp at hok
      · rw [if_neg hchk] at hok
        have hout : out = clean (goJoin2 r ip) := by
          have := hok
          simp at this
          exact this.symm
        subst hout
        refine ⟨?_, ip, rfl, rfl⟩
        unfold goRel at hrel
        by_cases hfst : (cleanSegs r).1 ≠ (cleanSegs (clean (goJoin2 r ip))).1
        · rw [if_pos hfst] at hrel
          simp at hrel
        · rw [if_neg hfst] at hrel
          have hfst2 : (cleanSegs r).1 = (cleanSegs (clean (goJoin2 r ip))).1 :=
            of_not_not hfst
          cases hdc : (dropCommon (cleanSegs r).2 (cleanSegs (clean (goJoin2 r ip))).2).1 with
          | nil =>
            unfold isDescendantOrSelf
            rw [hfst2, segsLe_of_dropCommon_nil _ _ hdc]
            simp
          | cons s rest2 =>
            exfalso
            apply hchk
            simp only [hdc] at hrel
            by_cases hs : s = ".."
            · rw [if_pos hs] at hrel
              simp at hrel
            · rw [if_neg hs] at hrel
              have hrelv : rel = joinPath (List.replicate (s :: rest2).length ".." ++
                  (dropCommon (cleanSegs r).2
                    (cleanSegs (clean (goJoin2 r ip))).2).2) := by
                simpa using hrel.symm
              rw [hrelv]
              rw [show List.replicate (s :: rest2).length (".." : String) =
                ".." :: List.replicate rest2.length ".." from by
                  rw [List.length_cons, List.replicate_succ]]
              rw [List.cons_append]
              exact relCheck_dd_head _

/-- Core of C5 amended: with an absolute root, re-resolving a returned
path succeeds and joins the root on again. -/
theorem reresolve_rooted_core (home : Option String) (p r out : String)
    (hroot : isRooted r = true)
    (hok : resolveAndValidatePath home p r = .ok out) :
    resolveAndValidatePath home out r = .ok (clean (goJoin2 r out)) := by
  obtain ⟨hdesc, ip, hexp, hout⟩ := resolver_ok_core home p r out hok
  have hr : r ≠ "" := ne_empty_of_isRooted r hroot
  have hXroot : isRooted (goJoin2 r ip) = true := by
    by_cases hip : ip = ""
    · rw [hip, goJoin2_right_empty r hr, isRooted_clean]
      exact hroot
    · rw [goJoin2_ne_ne r ip hr hip, isRooted_clean,
        isRooted_append_of_ne _ ip (string_append_ne_left r "/" hr),
        isRooted_append_of_ne _ "/" hr]
      exact hroot
  have hrout : isRooted out = true := by
    rw [hout, isRooted_clean]
    exact hXroot
  have hone : out ≠ "" := ne_empty_of_isRooted out hrout
  have hexp2 : expandTilde home out = .ok out := by
    unfold expandTilde
    rw [goHasPrefix_tilde_of_rooted out hrout]
    simp
  obtain ⟨k', m', hform', hm', hk'⟩ := cleanSegs_form (goJoin2 r ip)
  have hk0 : k' = 0 := hk' hXroot
  have hL : rawSegs out = m' := by
    rw [hout, clean_def]
    rw [rawSegs_joinSegs _ _ (cleanSegs_wf _)]
    rw [hform', hk0]
    simp
  have hmdd : ".." ∉ rawSegs out := by
    rw [hL]
    exact hm'
  have hsnd2 := resolved_snd r out hr hone
  have hrun2 : runStack (isRooted r) (runStack (isRooted r) [] (rawSegs r)) (rawSegs out) =
      (rawSegs out).reverse ++ runStack (isRooted r) [] (rawSegs r) :=
    runStack_no_dd _ _ hmdd _
  have htS2 : (cleanSegs (clean (goJoin2 r out))).2 =
      (cleanSegs r).2 ++ rawSegs out := by
    rw [hsnd2, hrun2, List.reverse_append, List.reverse_reverse]
    rfl
  have hfst2 : (cleanSegs r).1 = (cleanSegs (clean (goJoin2 r out))).1 :=
    (resolved_fst r out hr).symm
  have hdcv : dropCommon (cleanSegs r).2 (cleanSegs (clean (goJoin2 r out))).2 =
      ([], rawSegs out) := by
    rw [htS2]
    calc dropCommon (cleanSegs r).2 ((cleanSegs r).2 ++ rawSegs out)
        = dropCommon ((cleanSegs r).2 ++ []) ((cleanSegs r).2 ++ rawSegs out) := by
          rw [List.append_nil]
      _ = dropCommon [] (rawSegs out) := dropCommon_same _ _ _
      _ = ([], rawSegs out) := dropCommon_nil_left _
  have hgoRel2 := goRel_of_dropCommon_nil r (clean (goJoin2 r out)) hfst2
    (by rw [hdcv])
  rw [hdcv] at hgoRel2
  have hchk := relCheck_clean_tail (rawSegs out) (rawSegs_wf out) hmdd
  rw [resolver_eval home out r out _ hexp2 hgoRel2]
  rw [if_neg ?_]
  intro hcontra
  rcases hcontra with hc | hc
  · rw [hchk.1] at hc
    exact absurd hc (by decide)
  · exact hchk.2 hc

/-- C1: for every input string `p` and non-empty root path `r`, if
`resolveAndValidatePath` succeeds then the returned path's canonicalized
form is `r` itself or a descendant of `r`; and if the candidate
`Clean(Join(r, p))` (after `~`-expansion, the resolution the code
computes) lies outside `r`, the call fails with the boundary-violation
error `"Path must be within the notes directory"` and `handleNew` performs
no filesystem operation.  The resolver itself is a pure function, so the
failing call mutates nothing. -/
theorem c1_resolver_boundary (home : Option String) (p r : String) (hr : r ≠ "") :
    (∀ out, resolveAndValidatePath home p r = .ok out → isDescendantOrSelf r out = true) ∧
    (∀ ip, expandTilde home p = .ok ip →
      isDescendantOrSelf r (clean (goJoin2 r ip)) = false →
      resolveAndValidatePath home p r = .error "Path must be within the notes directory" ∧
      ∀ b, handleNewOps home p r b = []) := by
  constructor
  · intro out hok
    exact (resolver_ok_core home p r out hok).1
  · intro ip hexp hout
    obtain ⟨rel, hrel, hchk⟩ := resolver_boundary_core r ip hr hout
    have herr : resolveAndValidatePath home p r =
        .error "Path must be within the notes directory" := by
      rw [resolver_eval home p r ip rel hexp hrel, if_pos hchk]
    refine ⟨herr, fun b => ?_⟩
    unfold handleNewOps
    rw [herr]

/-- C1 witness: `"sub/new.md"` resolves inside `/notes`; `"../escape"`
resolves outside `/notes`, fails with the boundary error, and triggers no
filesystem operation in the `handleNew` flow. -/
theorem c1_witness :
    isDescendantOrSelf "/notes" "/notes/sub/new.md" = true ∧
    resolveAndValidatePath none "../escape" "/notes" =
      .error "Path must be within the notes directory" ∧
    handleNewOps none "../escape" "/notes" true = [] := by
  refine ⟨?_, ?_, ?_⟩
  · exact (c1_resolver_boundary none "sub/new.md" "/notes" (by decide)).1
      "/notes/sub/new.md" (by rfl)
  · exact ((c1_resolver_boundary none "../escape" "/notes" (by decide)).2
      "../escape" (by rfl) (by decide)).1
  · exact ((c1_resolver_boundary none "../escape" "/notes" (by decide)).2
      "../escape" (by rfl) (by decide)).2 true

/-- C5 counterexample: resolving `"a"` against root `/notes` returns
`/notes/a`, but resolving that returned absolute path again with the same
root succeeds with the different path `/notes/notes/a` — the root is
joined on a second time (main.go:229 joins unconditionally), so resolution
is not idempotent. -/
theorem c5_not_idempotent_counterexample :
    resolveAndValidatePath none "a" "/notes" = .ok "/notes/a" ∧
    resolveAndValidatePath none "/notes/a" "/notes" = .ok "/notes/notes/a" ∧
    ("/notes/notes/a" : String) ≠ "/notes/a" := by
  refine ⟨by rfl, by rfl, by decide⟩

/-- C5 amended: for an absolute root, applying `resolveAndValidatePath`
again to a successfully returned path does succeed, but returns
`Clean(Join(r, out))` — the returned path is treated as relative and
joined against the root again — rather than the same path. -/
theorem c5_rooted_reresolve_joins_root (home : Option String) (p r out : String)
    (hroot : isRooted r = true)
    (hok : resolveAndValidatePath home p r = .ok out) :
    resolveAndValidatePath home out r = .ok (clean (goJoin2 r out)) :=
  reresolve_rooted_core home p r out hroot hok

/-- C5 witness: re-resolving the path returned for `"a"` under `/notes`
succeeds and yields the re-joined candidate. -/
theorem c5_witness :
    resolveAndValidatePath none "/notes/a" "/notes" =
      .ok (clean (goJoin2 "/notes" "/notes/a")) :=
  c5_rooted_reresolve_joins_root none "a" "/notes" "/notes/a" (by decide) (by rfl)

/-- C6 counterexample: the absolute input `/etc/passwd` resolves (as the
claim reads it, without joining) outside `/notes`, so under the claim the
boundary check would see `/etc/passwd` and fail; the code instead joins it
against the root (main.go:229 has no absoluteness test) and succeeds with
`/notes/etc/passwd`, which is not the cleaned absolute input. -/
theorem c6_absolute_input_counterexample :
    isRooted "/etc/passwd" = true ∧
    isDescendantOrSelf "/notes" (clean "/etc/passwd") = false ∧
    resolveAndValidatePath none "/etc/passwd" "/notes" = .ok "/notes/etc/passwd" ∧
    ("/notes/etc/passwd" : String) ≠ clean "/etc/passwd" := by
  refine ⟨by decide, by decide, by rfl, by decide⟩

/-- C6 amended: `resolveAndValidatePath` joins the input against the root
unconditionally: even for an absolute input path (which undergoes no
`~`-expansion), the candidate that is canonicalized, boundary-checked and
returned is `Clean(Join(root, input))`, not the absolute input itself. -/
theorem c6_always_joins_root (home : Option String) (p r out : String)
    (habs : isRooted p = true)
    (hok : resolveAndValidatePath home p r = .ok out) :
    out = clean (goJoin2 r p) := by
  obtain ⟨_, ip, hexp, hout⟩ := resolver_ok_core home p r out hok
  have hip : ip = p := by
    unfold expandTilde at hexp
    rw [goHasPrefix_tilde_of_rooted p habs] at hexp
    simp at hexp
    exact hexp.symm
  rw [hout, hip]

/-- C6 witness: the path returned for the absolute input `/etc/passwd` is
the root-joined candidate. -/
theorem c6_witness :
    ("/notes/etc/passwd" : String) = clean (goJoin2 "/notes" "/etc/passwd") :=
  c6_always_joins_root none "/etc/passwd" "/notes" "/notes/etc/passwd" (by decide) (by rfl)

end Notes
